import Mathlib

/-!
Verification development for the riffx repository (riffx.c,
src/unnamed/part_000 — the option-aware variant of riffx.c — and
unriffle.c, whose second revision carries the pad-byte reporting).

Byte buffers are modelled as `List Nat`; a read `b[i]` becomes
`buf.getD i 0` (reads past the end yield 0, marking where the C code
would touch memory outside the buffer; the separately tracked read
addresses record every dereference).  `size_t` arithmetic that can
wrap is modelled by `wsub` (subtraction modulo 2^64); where the code
guards against underflow, plain `Nat` subtraction agrees with it.
C loops are embedded with an explicit fuel argument so that every
definition is executable; each wrapper supplies fuel that provably
suffices (the loops advance their cursor by at least one per step).
-/

namespace Riffx

/-- Two to the sixty-fourth: the modulus of `size_t` arithmetic. -/
def W64 : Nat := 18446744073709551616

/-- `size_t` subtraction `a - b`, wrapping modulo 2^64 as C does. -/
def wsub (a b : Nat) : Nat := (a + (W64 - b % W64)) % W64

theorem wsub_of_le {a b : Nat} (hb : b ≤ a) (ha : a < W64) : wsub a b = a - b := by
  unfold wsub
  have hbW : b % W64 = b := Nat.mod_eq_of_lt (lt_of_le_of_lt hb ha)
  rw [hbW]
  have h1 : a + (W64 - b) = (a - b) + W64 := by omega
  rw [h1, Nat.add_mod_right]
  exact Nat.mod_eq_of_lt (by omega)

/-- Two to the thirty-second: the modulus of `uint32_t` / `unsigned int`
arithmetic (C's usual arithmetic conversions evaluate
`uint32_t op int` in `unsigned int`, wrapping modulo 2^32). -/
def W32 : Nat := 4294967296

/-- Reduce a value into `uint32_t` range, as C's unsigned-int
arithmetic and conversions do. -/
def w32 (n : Nat) : Nat := n % W32

/-- `uint32_t` subtraction `a - b`, wrapping modulo 2^32. -/
def wsub32 (a b : Nat) : Nat := (a + (W32 - b % W32)) % W32

/-- The list of addresses `[s, s+1, …, s+n-1]`: the bytes a C read of
`n` bytes starting at address `s` dereferences. -/
def rng (s n : Nat) : List Nat := (List.range n).map (fun i => s + i)

/-- `get_ui32` (identical in src/unnamed/part_000 and unriffle.c):
interpret four bytes at offset `i` of `buf` in the byte order selected
by `e` (`cfg.endianess`): 0 = little endian (RIFF), otherwise big
endian (RIFX).  riffx.c's endian-unaware `get_ui32` is `get_ui32 0`. -/
def get_ui32 (e : Nat) (buf : List Nat) (i : Nat) : Nat :=
  let b0 := buf.getD i 0
  let b1 := buf.getD (i+1) 0
  let b2 := buf.getD (i+2) 0
  let b3 := buf.getD (i+3) 0
  if e = 0 then
    b0 ||| (b1 <<< 8) ||| (b2 <<< 16) ||| (b3 <<< 24)
  else
    b3 ||| (b2 <<< 8) ||| (b1 <<< 16) ||| (b0 <<< 24)

/-- `get_ui16` (unriffle.c): two bytes in the byte order selected by `e`. -/
def get_ui16 (e : Nat) (buf : List Nat) (i : Nat) : Nat :=
  let b0 := buf.getD i 0
  let b1 := buf.getD (i+1) 0
  if e = 0 then
    b0 ||| (b1 <<< 8)
  else
    b1 ||| (b0 <<< 8)

/-- The byte at `i` of `buf.drop t` is the byte at `t + i` of `buf`. -/
theorem getD_drop (buf : List Nat) (t i : Nat) :
    (buf.drop t).getD i 0 = buf.getD (t + i) 0 := by
  simp [List.getD_eq_getElem?_getD, List.getElem?_drop]

/-- Needle occurs in the haystack at offset `t`: the needle fits and
every byte matches.  `H[t : t+|N|] == N` in the spec's slice notation. -/
def occursAt (hst ndl : List Nat) (t : Nat) : Prop :=
  t + ndl.length ≤ hst.length ∧ ∀ j < ndl.length, hst.getD (t + j) 0 = ndl.getD j 0

instance (hst ndl : List Nat) (t : Nat) : Decidable (occursAt hst ndl t) := by
  unfold occursAt; infer_instance

/-- Full-window comparison of the needle against the haystack at
offset `s` — the inner right-to-left loop of `mem_mem` compares
exactly these positions (direction is immaterial to the result). -/
def windowEq (hst ndl : List Nat) (s : Nat) : Bool :=
  (List.range ndl.length).all (fun j => hst.getD (s + j) 0 == ndl.getD j 0)

/-- The Boyer-Moore-Horspool shift table of `mem_mem`, as a function of
the byte value `c`: the C code initialises `skip[c] = nlen` and then,
for `k = 0 … nlen-2` in increasing order, overwrites `skip[ndl[k]]`
with `nlen-k-1`; this fold performs the same overwrites in the same
order. -/
def bmhSkip (ndl : List Nat) (c : Nat) : Nat :=
  (List.range (ndl.length - 1)).foldl
    (fun acc k => if ndl.getD k 0 == c then ndl.length - k - 1 else acc)
    ndl.length

/-- The search loop of `mem_mem`: `for (k = nlen-1; k < hlen; k += skip[hst[k]])`,
returning the match offset `k - (nlen-1)` when the window at `k` fully
matches.  `fuel` bounds the iteration count; `mem_mem` supplies
`hlen + 1`, which suffices because each step advances `k` by
`bmhSkip ≥ 1` (for a non-empty needle), so the fuel-exhausted branch is
never taken under `mem_mem`'s guard. -/
def bmhLoop (hst ndl : List Nat) : Nat → Nat → Option Nat
  | 0, _ => none
  | fuel+1, k =>
    if k < hst.length then
      if windowEq hst ndl (k + 1 - ndl.length) then some (k + 1 - ndl.length)
      else bmhLoop hst ndl fuel (k + bmhSkip ndl (hst.getD k 0))
    else none

/-- `mem_mem` (riffx.c:105, src/unnamed/part_000:101): locate the needle
in the haystack by Boyer-Moore-Horspool; offset of the first occurrence,
`some 0` for an empty needle, `none` when absent. -/
def mem_mem (hst ndl : List Nat) : Option Nat :=
  if ndl.length = 0 then some 0
  else bmhLoop hst ndl (hst.length + 1) (ndl.length - 1)

theorem bmhSkip_fold_pos (ndl : List Nat) (c : Nat) :
    ∀ (m init : Nat), 1 ≤ init → m + 1 ≤ ndl.length →
      1 ≤ (List.range m).foldl
        (fun acc k => if ndl.getD k 0 == c then ndl.length - k - 1 else acc) init := by
  intro m
  induction m with
  | zero => intro init h1 _; simpa using h1
  | succ m ih =>
    intro init h1 hm
    rw [List.range_succ, List.foldl_append]
    simp only [List.foldl_cons, List.foldl_nil]
    by_cases hc : ndl.getD m 0 == c
    · rw [if_pos hc]; omega
    · rw [if_neg hc]; exact ih init h1 (by omega)

theorem bmhSkip_fold_le (ndl : List Nat) (c : Nat) :
    ∀ (m init : Nat), init ≤ ndl.length →
      (List.range m).foldl
        (fun acc k => if ndl.getD k 0 == c then ndl.length - k - 1 else acc) init
        ≤ ndl.length := by
  intro m
  induction m with
  | zero => intro init h1; simpa using h1
  | succ m ih =>
    intro init h1
    rw [List.range_succ, List.foldl_append]
    simp only [List.foldl_cons, List.foldl_nil]
    by_cases hc : ndl.getD m 0 == c
    · rw [if_pos hc]; omega
    · rw [if_neg hc]; exact ih init h1

theorem bmhSkip_fold_bound (ndl : List Nat) (c : Nat) :
    ∀ (m init j : Nat), j < m → ndl.getD j 0 = c →
      (List.range m).foldl
        (fun acc k => if ndl.getD k 0 == c then ndl.length - k - 1 else acc) init
        ≤ ndl.length - 1 - j := by
  intro m
  induction m with
  | zero => intro init j hj _; omega
  | succ m ih =>
    intro init j hj hc
    rw [List.range_succ, List.foldl_append]
    simp only [List.foldl_cons, List.foldl_nil]
    rcases Nat.lt_or_ge j m with hjm | hjm
    · by_cases hcm : ndl.getD m 0 == c
      · rw [if_pos hcm]; omega
      · rw [if_neg hcm]; exact ih init j hjm hc
    · have hje : j = m := by omega
      subst hje
      rw [if_pos (by simpa using hc)]
      omega

/-- For a non-empty needle every shift is at least 1 (the search loop
strictly advances). -/
theorem bmhSkip_pos (ndl : List Nat) (hn : 1 ≤ ndl.length) (c : Nat) :
    1 ≤ bmhSkip ndl c :=
  bmhSkip_fold_pos ndl c (ndl.length - 1) ndl.length (by omega) (by omega)

/-- Every shift is at most the needle length. -/
theorem bmhSkip_le (ndl : List Nat) (c : Nat) : bmhSkip ndl c ≤ ndl.length :=
  bmhSkip_fold_le ndl c (ndl.length - 1) ndl.length le_rfl

/-- The final table entry for a byte appearing at position `j` before
the needle's last position is at most `nlen - 1 - j` (the fill loop
runs in increasing `j`, so the entry records the last such position). -/
theorem bmhSkip_bound (ndl : List Nat) (c j : Nat)
    (hj : j + 1 < ndl.length) (hc : ndl.getD j 0 = c) :
    bmhSkip ndl c ≤ ndl.length - 1 - j :=
  bmhSkip_fold_bound ndl c (ndl.length - 1) ndl.length j (by omega) hc

theorem windowEq_true_iff (hst ndl : List Nat) (s : Nat) :
    windowEq hst ndl s = true ↔
      ∀ j < ndl.length, hst.getD (s + j) 0 = ndl.getD j 0 := by
  simp [windowEq, List.all_eq_true, List.mem_range, beq_iff_eq]

theorem occursAt_windowEq {hst ndl : List Nat} {s : Nat}
    (h : occursAt hst ndl s) : windowEq hst ndl s = true :=
  (windowEq_true_iff hst ndl s).mpr h.2

theorem windowEq_occursAt {hst ndl : List Nat} {s : Nat}
    (h : windowEq hst ndl s = true) (hs : s + ndl.length ≤ hst.length) :
    occursAt hst ndl s :=
  ⟨hs, (windowEq_true_iff hst ndl s).mp h⟩

/-- Correctness of the Boyer-Moore-Horspool loop: under the invariant
that no occurrence starts before the current window, a `some` answer is
the first occurrence and a `none` answer means there is none.  The fuel
bound `hst.length + 1 ≤ k + fuel` guarantees fuel never runs out, since
`k` advances by at least one per step. -/
theorem bmhLoop_correct (hst ndl : List Nat) (hn : 1 ≤ ndl.length) :
    ∀ (fuel k : Nat), ndl.length - 1 ≤ k → hst.length + 1 ≤ k + fuel →
      (∀ t, t + ndl.length ≤ k → ¬ occursAt hst ndl t) →
      ((∀ o, bmhLoop hst ndl fuel k = some o →
          occursAt hst ndl o ∧ ∀ t < o, ¬ occursAt hst ndl t) ∧
       (bmhLoop hst ndl fuel k = none → ∀ t, ¬ occursAt hst ndl t)) := by
  intro fuel
  induction fuel with
  | zero =>
    intro k _ hfuel inv
    constructor
    · intro o ho; simp [bmhLoop] at ho
    · intro _ t hocc
      have h1 := hocc.1
      exact inv t (by omega) hocc
  | succ fuel ih =>
    intro k hk hfuel inv
    simp only [bmhLoop]
    by_cases hkh : k < hst.length
    · rw [if_pos hkh]
      by_cases hw : windowEq hst ndl (k + 1 - ndl.length) = true
      · rw [if_pos hw]
        constructor
        · intro o ho
          injection ho with ho
          subst ho
          have hocc : occursAt hst ndl (k + 1 - ndl.length) :=
            windowEq_occursAt hw (by omega)
          exact ⟨hocc, fun t ht => inv t (by omega)⟩
        · intro h; exact absurd h (by simp)
      · rw [if_neg hw]
        have hskip1 : 1 ≤ bmhSkip ndl (hst.getD k 0) :=
          bmhSkip_pos ndl hn (hst.getD k 0)
        have hskipn : bmhSkip ndl (hst.getD k 0) ≤ ndl.length :=
          bmhSkip_le ndl (hst.getD k 0)
        apply ih
        · omega
        · omega
        · intro t ht hocc
          have hocc1 := hocc.1
          rcases Nat.lt_or_ge (t + ndl.length) (k + 1) with hcase | hcase
          · exact inv t (by omega) hocc
          rcases Nat.eq_or_lt_of_le hcase with hcase2 | hcase2
          · have hts : t = k + 1 - ndl.length := by omega
            exact hw (hts ▸ occursAt_windowEq hocc)
          · -- t > k + 1 - ndl.length : the skipped window overlaps hst[k]
            have htk : t ≤ k := by omega
            have hjlt : k - t < ndl.length := by omega
            have hjlt2 : (k - t) + 1 < ndl.length := by omega
            have hbyte : hst.getD k 0 = ndl.getD (k - t) 0 := by
              have := hocc.2 (k - t) hjlt
              have hadd : t + (k - t) = k := by omega
              rw [hadd] at this
              exact this
            have hb := bmhSkip_bound ndl (hst.getD k 0) (k - t) hjlt2 hbyte.symm
            omega
    · rw [if_neg hkh]
      constructor
      · intro o ho; simp at ho
      · intro _ t hocc
        have h1 := hocc.1
        exact inv t (by omega) hocc

theorem mem_mem_some (hst ndl : List Nat) (hn : ndl ≠ []) (o : Nat)
    (h : mem_mem hst ndl = some o) :
    occursAt hst ndl o ∧ ∀ t < o, ¬ occursAt hst ndl t := by
  have hn1 : 1 ≤ ndl.length := List.length_pos.mpr hn
  unfold mem_mem at h
  rw [if_neg (by omega)] at h
  exact (bmhLoop_correct hst ndl hn1 (hst.length + 1) (ndl.length - 1)
    (by omega) (by omega) (fun t ht _ => by omega)).1 o h

theorem mem_mem_none (hst ndl : List Nat) (hn : ndl ≠ [])
    (h : mem_mem hst ndl = none) : ∀ t, ¬ occursAt hst ndl t := by
  have hn1 : 1 ≤ ndl.length := List.length_pos.mpr hn
  unfold mem_mem at h
  rw [if_neg (by omega)] at h
  exact (bmhLoop_correct hst ndl hn1 (hst.length + 1) (ndl.length - 1)
    (by omega) (by omega) (fun t ht _ => by omega)).2 h

theorem mem_mem_eq_none_iff (hst ndl : List Nat) (hn : ndl ≠ []) :
    mem_mem hst ndl = none ↔ ∀ t, ¬ occursAt hst ndl t := by
  constructor
  · exact mem_mem_none hst ndl hn
  · intro h
    cases hmm : mem_mem hst ndl with
    | none => rfl
    | some o => exact absurd (mem_mem_some hst ndl hn o hmm).1 (h o)

/-- If an occurrence exists, `mem_mem` finds the first one. -/
theorem mem_mem_of_occurs (hst ndl : List Nat) (hn : ndl ≠ []) {q : Nat}
    (hq : occursAt hst ndl q) :
    ∃ t, mem_mem hst ndl = some t ∧ occursAt hst ndl t ∧ t ≤ q ∧
      ∀ u < t, ¬ occursAt hst ndl u := by
  cases hmm : mem_mem hst ndl with
  | none => exact absurd hq (mem_mem_none hst ndl hn hmm q)
  | some t =>
    obtain ⟨h1, h2⟩ := mem_mem_some hst ndl hn t hmm
    refine ⟨t, rfl, h1, ?_, h2⟩
    by_contra hlt
    push_neg at hlt
    exact h2 q hlt hq

theorem mem_mem_short (hst ndl : List Nat) (h : hst.length < ndl.length) :
    mem_mem hst ndl = none := by
  have hn : ndl ≠ [] := by
    intro he; subst he; simp at h
  cases hmm : mem_mem hst ndl with
  | none => rfl
  | some o =>
    have := (mem_mem_some hst ndl hn o hmm).1.1
    omega

/-- Occurrence in a dropped suffix is occurrence in the whole buffer,
shifted. -/
theorem occursAt_drop (buf ndl : List Nat) (s t : Nat) (hn : 1 ≤ ndl.length) :
    occursAt (buf.drop s) ndl t ↔ occursAt buf ndl (s + t) := by
  unfold occursAt
  rw [List.length_drop]
  constructor
  · rintro ⟨h1, h2⟩
    refine ⟨by omega, fun j hj => ?_⟩
    have := h2 j hj
    rw [getD_drop] at this
    rw [← this]
    ring_nf
  · rintro ⟨h1, h2⟩
    refine ⟨by omega, fun j hj => ?_⟩
    rw [getD_drop]
    have := h2 j hj
    rw [← this]
    ring_nf

/-- C1: for every haystack `H` and non-empty needle `N`, `mem_mem`
returns an offset `O` with `H[O : O+|N|] == N` and no occurrence of `N`
at any earlier offset; it returns `none` exactly when `N` does not
occur in `H`; a zero-length needle yields offset 0 immediately; and a
haystack shorter than the needle yields `none`. -/
theorem C1_mem_mem_correct (hst ndl : List Nat) (hn : ndl ≠ []) :
    (∀ o, mem_mem hst ndl = some o →
        occursAt hst ndl o ∧ ∀ t < o, ¬ occursAt hst ndl t) ∧
    (mem_mem hst ndl = none ↔ ∀ t, ¬ occursAt hst ndl t) ∧
    mem_mem hst [] = some 0 ∧
    (hst.length < ndl.length → mem_mem hst ndl = none) :=
  ⟨fun o => mem_mem_some hst ndl hn o,
   mem_mem_eq_none_iff hst ndl hn,
   rfl,
   mem_mem_short hst ndl⟩

/-- Witness for C1 at a concrete haystack and needle. -/
theorem C1_mem_mem_correct_witness :
    ([82, 73, 70, 70] : List Nat) ≠ [] ∧
    (mem_mem [0, 82, 73, 70, 70, 9] [82, 73, 70, 70] = none ↔
      ∀ t, ¬ occursAt [0, 82, 73, 70, 70, 9] [82, 73, 70, 70] t) :=
  ⟨by decide, (C1_mem_mem_correct [0, 82, 73, 70, 70, 9] [82, 73, 70, 70] (by decide)).2.1⟩

/-- C9: for every 4-byte sequence `[b0,b1,b2,b3]`, the 32-bit read in
big-endian (RIFX) mode equals the little-endian (RIFF) read of the
reversed sequence, and likewise for 16-bit reads; hence identical byte
content decoded under RIFX instead of RIFF yields every multi-byte
numeric field with reversed byte order. -/
theorem C9_endian_reverse (b0 b1 b2 b3 : Nat) :
    get_ui32 1 [b0, b1, b2, b3] 0 = get_ui32 0 [b3, b2, b1, b0] 0 ∧
    get_ui16 1 [b0, b1] 0 = get_ui16 0 [b1, b0] 0 := by
  constructor <;> rfl

/-- The four RIFF container signature bytes, `"RIFF"`. -/
def RIFFb : List Nat := [82, 73, 70, 70]

/-- The four RIFX container signature bytes, `"RIFX"`. -/
def RIFXb : List Nat := [82, 73, 70, 88]

/-- `RIF_[e]` in `extract` (src/unnamed/part_000:266): the signature the
scan searches, selected by the byte-order flag. -/
def sigBytes (e : Nat) : List Nat := if e = 0 then RIFFb else RIFXb

/-- The per-hit segment loop of `extract` (src/unnamed/part_000:286-305):
starting from the first signature hit, repeatedly look for the next
occurrence of the same signature 4 bytes past the current hit, compute
the segment length (declared from the size field, clamped to the
remaining length, or heuristic up to the next hit / end of buffer), emit
the segment, and move to the next hit.  Emits `(offset, length)` pairs.
The declared length `get_ui32(riff + 4) + 8` is evaluated in
`unsigned int` (part_000:294), so it wraps modulo 2^32: size fields at
or above 0xFFFFFFF8 yield a small length that passes under the clamp.
`fuel` bounds the iterations; the wrapper supplies `buf.length + 1`,
which suffices because every step advances the hit offset by at least 4. -/
def extractLoop (e : Nat) (buf : List Nat) (guess : Bool) :
    Nat → Nat → List (Nat × Nat)
  | 0, _ => []
  | fuel+1, riff =>
    let fsize := buf.length
    let remsize := fsize - riff
    if 8 < remsize then
      match mem_mem (buf.drop (riff + 4)) (sigBytes e) with
      | some t =>
        let nxt := riff + 4 + t
        let rsize :=
          if guess then nxt - riff
          else
            let r0 := w32 (get_ui32 e buf (riff + 4) + 8)
            if remsize < r0 then remsize else r0
        (riff, rsize) :: extractLoop e buf guess fuel nxt
      | none =>
        let rsize :=
          if guess then remsize
          else
            let r0 := w32 (get_ui32 e buf (riff + 4) + 8)
            if remsize < r0 then remsize else r0
        [(riff, rsize)]
    else []

/-- `extract` (src/unnamed/part_000:265-308): probe for the first
occurrence of `"RIFF"`, then `"RIFX"` (in that priority); the successful
probe fixes `cfg.endianess` (returned as the first component: 0 = RIFF /
little endian, 1 = RIFX / big endian) for the whole scan, and the scan
runs from that first hit.  When neither signature occurs, the probe
loop leaves `cfg.endianess` at 2 and no segment is produced. -/
def extract (buf : List Nat) (guess : Bool) : Nat × List (Nat × Nat) :=
  match mem_mem buf RIFFb with
  | some off => (0, extractLoop 0 buf guess (buf.length + 1) off)
  | none =>
    match mem_mem buf RIFXb with
    | some off => (1, extractLoop 1 buf guess (buf.length + 1) off)
    | none => (2, [])

/-- The (amended) length specification for an emitted segment `(O, L)`:
in heuristic mode, `L` is the distance from `O` to the first occurrence
of the scan's signature at or past `O + 4`, or the remaining buffer
length when there is none; in declared mode, `L` is 8 plus the 32-bit
size field at `O + 4` in the active byte order, computed in 32-bit
arithmetic (wrapping modulo 2^32 for size fields at or above
0xFFFFFFF8), clamped so that `O + L` does not exceed the buffer end. -/
def segLenSpec (buf : List Nat) (e : Nat) (guess : Bool) (seg : Nat × Nat) : Prop :=
  if guess then
    (∃ t, seg.1 + 4 ≤ t ∧ occursAt buf (sigBytes e) t ∧
        (∀ u, seg.1 + 4 ≤ u → u < t → ¬ occursAt buf (sigBytes e) u) ∧
        seg.2 = t - seg.1)
    ∨ ((∀ u, seg.1 + 4 ≤ u → ¬ occursAt buf (sigBytes e) u) ∧
        seg.2 = buf.length - seg.1)
  else
    seg.2 = min (w32 (get_ui32 e buf (seg.1 + 4) + 8)) (buf.length - seg.1)

theorem sigBytes_ne_nil (e : Nat) : sigBytes e ≠ [] := by
  unfold sigBytes RIFFb RIFXb
  by_cases he : e = 0 <;> simp [he]

theorem sigBytes_len (e : Nat) : (sigBytes e).length = 4 := by
  unfold sigBytes RIFFb RIFXb
  by_cases he : e = 0 <;> simp [he]

/-- If a signature occurs at an absolute offset `u ≥ riff + 4`, it
occurs in the dropped suffix starting there. -/
theorem occursAt_undrop (buf : List Nat) (e : Nat) {u riff : Nat}
    (hu : riff + 4 ≤ u) (hocc : occursAt buf (sigBytes e) u) :
    occursAt (buf.drop (riff + 4)) (sigBytes e) (u - (riff + 4)) := by
  rw [occursAt_drop buf (sigBytes e) (riff + 4) (u - (riff + 4))
    (by rw [sigBytes_len]; omega)]
  have h : riff + 4 + (u - (riff + 4)) = u := by omega
  rw [h]
  exact hocc

/-- Every segment emitted by the loop satisfies the claim's length
specification. -/
theorem extractLoop_lenSpec (e : Nat) (buf : List Nat) (guess : Bool) :
    ∀ (fuel riff : Nat),
      ∀ seg ∈ extractLoop e buf guess fuel riff, segLenSpec buf e guess seg := by
  intro fuel
  induction fuel with
  | zero => intro riff seg hseg; simp [extractLoop] at hseg
  | succ fuel ih =>
    intro riff seg hseg
    simp only [extractLoop] at hseg
    by_cases hrem : 8 < buf.length - riff
    · rw [if_pos hrem] at hseg
      cases hmm : mem_mem (buf.drop (riff + 4)) (sigBytes e) with
      | some t =>
        rw [hmm] at hseg
        simp only [List.mem_cons] at hseg
        rcases hseg with hseg | hseg
        · obtain ⟨hocc, hmin⟩ :=
            mem_mem_some (buf.drop (riff + 4)) (sigBytes e) (sigBytes_ne_nil e) t hmm
          have hocc' : occursAt buf (sigBytes e) (riff + 4 + t) :=
            (occursAt_drop buf (sigBytes e) (riff + 4) t
              (by rw [sigBytes_len]; omega)).mp hocc
          rcases Bool.eq_false_or_eq_true guess with hg | hg
          · subst hg
            subst hseg
            show _ ∨ _
            left
            rw [if_pos rfl]
            dsimp only
            refine ⟨riff + 4 + t, by omega, hocc', ?_, by omega⟩
            intro u hu1 hu2 hocc2
            exact hmin (u - (riff + 4)) (by omega) (occursAt_undrop buf e hu1 hocc2)
          · subst hg
            subst hseg
            show (riff, _).2 = min (w32 (get_ui32 e buf (riff + 4) + 8)) (buf.length - riff)
            rw [if_neg Bool.false_ne_true, Nat.min_def]
            dsimp only
            split <;> split <;> omega
        · exact ih (riff + 4 + t) seg hseg
      | none =>
        rw [hmm] at hseg
        simp only [List.mem_singleton] at hseg
        have hnone := mem_mem_none (buf.drop (riff + 4)) (sigBytes e) (sigBytes_ne_nil e) hmm
        rcases Bool.eq_false_or_eq_true guess with hg | hg
        · subst hg
          subst hseg
          show _ ∨ _
          right
          rw [if_pos rfl]
          dsimp only
          refine ⟨?_, rfl⟩
          intro u hu hocc2
          exact hnone (u - (riff + 4)) (occursAt_undrop buf e hu hocc2)
        · subst hg
          subst hseg
          show (riff, _).2 = min (w32 (get_ui32 e buf (riff + 4) + 8)) (buf.length - riff)
          rw [if_neg Bool.false_ne_true, Nat.min_def]
          dsimp only
          split <;> split <;> omega
    · rw [if_neg hrem] at hseg
      simp at hseg

/-- Two concatenated RIFF chunks; the first chunk's size field is the
corrupted value 0xFFFFFFFF, the second declares payload size 4.  The
second chunk starts at offset 12; the buffer ends at offset 24. -/
def bufC2 : List Nat :=
  [82, 73, 70, 70, 255, 255, 255, 255, 0, 0, 0, 0,
   82, 73, 70, 70, 4, 0, 0, 0, 1, 2, 3, 4]

/-- C2 counterexample: on the claim's own vector — two concatenated
RIFF chunks whose first size field is 0xFFFFFFFF — declared mode does
not clamp to end-of-buffer: `rsize = get_ui32(riff+4) + 8` is evaluated
in `unsigned int`, so 0xFFFFFFFF + 8 wraps to 7, which is below the
remaining 24 bytes and bypasses the clamp; the program emits a 7-byte
first segment, and no emitted segment reaches the buffer end at 24. -/
theorem C2_segment_lengths_counterexample :
    bufC2.length = 24 ∧
    get_ui32 0 bufC2 4 = 4294967295 ∧
    extract bufC2 false = (0, [(0, 7), (12, 12)]) ∧
    (0, 24) ∉ (extract bufC2 false).2 := by
  refine ⟨rfl, by decide, by decide, by decide⟩

/-- C2 (amended): every emitted segment's length is, in declared mode,
8 plus the 32-bit size field in the active byte order computed in
32-bit (wrapping) arithmetic — so size fields at or above 0xFFFFFFF8
wrap small and bypass the clamp — clamped so the segment does not run
past the buffer end; in heuristic mode, the distance to the next
occurrence of the same signature searched from 4 bytes past the hit
(or the remaining buffer length when none).  On two concatenated RIFF
chunks whose first size field is 0xFFFFFFFF, heuristic mode ends the
first segment exactly at the second chunk's start (offset 12), while
declared mode emits a 7-byte first segment (not end-of-buffer). -/
theorem C2_segment_lengths_amended :
    (∀ (buf : List Nat) (guess : Bool) seg,
        seg ∈ (extract buf guess).2 →
        segLenSpec buf (extract buf guess).1 guess seg) ∧
    extract bufC2 true = (0, [(0, 12), (12, 12)]) ∧
    extract bufC2 false = (0, [(0, 7), (12, 12)]) := by
  refine ⟨?_, by decide, by decide⟩
  intro buf guess seg hseg
  cases hmm : mem_mem buf RIFFb with
  | some off =>
    have he : extract buf guess = (0, extractLoop 0 buf guess (buf.length + 1) off) := by
      unfold extract; rw [hmm]
    rw [he] at hseg ⊢
    exact extractLoop_lenSpec 0 buf guess (buf.length + 1) off seg hseg
  | none =>
    cases hmm2 : mem_mem buf RIFXb with
    | some off =>
      have he : extract buf guess = (1, extractLoop 1 buf guess (buf.length + 1) off) := by
        unfold extract; rw [hmm, hmm2]
      rw [he] at hseg ⊢
      exact extractLoop_lenSpec 1 buf guess (buf.length + 1) off seg hseg
    | none =>
      have he : extract buf guess = (2, []) := by
        unfold extract; rw [hmm, hmm2]
      rw [he] at hseg
      simp at hseg

/-- Witness for C2 (amended) at a concrete emitted segment. -/
theorem C2_segment_lengths_amended_witness :
    (0, 12) ∈ (extract bufC2 true).2 ∧
    segLenSpec bufC2 (extract bufC2 true).1 true (0, 12) :=
  ⟨by decide, C2_segment_lengths_amended.1 bufC2 true (0, 12) (by decide)⟩

/-- Every segment the loop emits starts at an occurrence of the scan's
fixed signature, provided the starting hit does. -/
theorem extractLoop_offsets (e : Nat) (buf : List Nat) (guess : Bool) :
    ∀ (fuel riff : Nat), occursAt buf (sigBytes e) riff →
      ∀ seg ∈ extractLoop e buf guess fuel riff,
        occursAt buf (sigBytes e) seg.1 := by
  intro fuel
  induction fuel with
  | zero => intro riff _ seg hseg; simp [extractLoop] at hseg
  | succ fuel ih =>
    intro riff hriff seg hseg
    simp only [extractLoop] at hseg
    by_cases hrem : 8 < buf.length - riff
    · rw [if_pos hrem] at hseg
      cases hmm : mem_mem (buf.drop (riff + 4)) (sigBytes e) with
      | some t =>
        rw [hmm] at hseg
        simp only [List.mem_cons] at hseg
        rcases hseg with hseg | hseg
        · subst hseg; exact hriff
        · have hocc := (mem_mem_some (buf.drop (riff + 4)) (sigBytes e)
            (sigBytes_ne_nil e) t hmm).1
          exact ih (riff + 4 + t)
            ((occursAt_drop buf (sigBytes e) (riff + 4) t
              (by rw [sigBytes_len]; omega)).mp hocc) seg hseg
      | none =>
        rw [hmm] at hseg
        simp only [List.mem_singleton] at hseg
        subst hseg
        exact hriff
    · rw [if_neg hrem] at hseg
      simp at hseg

/-- C7: the segmenter probes for the first occurrence of "RIFF", then
"RIFX" (in that priority); the successful probe fixes the byte-order
flag for the entire scan (0 = RIFF/little endian, 1 = RIFX/big endian —
the flag every `get_ui32` of the scan receives); every emitted segment
starts at an occurrence of that same fixed signature; and when neither
signature occurs, exactly zero segments are produced. -/
theorem C7_probe_priority (buf : List Nat) (guess : Bool) :
    ((∀ q, ¬ occursAt buf RIFFb q) → (∀ q, ¬ occursAt buf RIFXb q) →
        extract buf guess = (2, [])) ∧
    ((∃ q, occursAt buf RIFFb q) → (extract buf guess).1 = 0) ∧
    ((∀ q, ¬ occursAt buf RIFFb q) → (∃ q, occursAt buf RIFXb q) →
        (extract buf guess).1 = 1) ∧
    (∀ seg ∈ (extract buf guess).2,
        occursAt buf (sigBytes (extract buf guess).1) seg.1) := by
  have hFne : RIFFb ≠ [] := by decide
  have hXne : RIFXb ≠ [] := by decide
  refine ⟨?_, ?_, ?_, ?_⟩
  · intro hF hX
    unfold extract
    rw [(mem_mem_eq_none_iff buf RIFFb hFne).mpr hF,
        (mem_mem_eq_none_iff buf RIFXb hXne).mpr hX]
  · rintro ⟨q, hq⟩
    obtain ⟨t, hmm, -, -, -⟩ := mem_mem_of_occurs buf RIFFb hFne hq
    unfold extract
    rw [hmm]
  · rintro hF ⟨q, hq⟩
    obtain ⟨t, hmm, -, -, -⟩ := mem_mem_of_occurs buf RIFXb hXne hq
    unfold extract
    rw [(mem_mem_eq_none_iff buf RIFFb hFne).mpr hF, hmm]
  · intro seg hseg
    cases hmm : mem_mem buf RIFFb with
    | some off =>
      have he : extract buf guess = (0, extractLoop 0 buf guess (buf.length + 1) off) := by
        unfold extract; rw [hmm]
      rw [he] at hseg ⊢
      have hocc := (mem_mem_some buf RIFFb hFne off hmm).1
      exact extractLoop_offsets 0 buf guess (buf.length + 1) off hocc seg hseg
    | none =>
      cases hmm2 : mem_mem buf RIFXb with
      | some off =>
        have he : extract buf guess = (1, extractLoop 1 buf guess (buf.length + 1) off) := by
          unfold extract; rw [hmm, hmm2]
        rw [he] at hseg ⊢
        have hocc := (mem_mem_some buf RIFXb hXne off hmm2).1
        exact extractLoop_offsets 1 buf guess (buf.length + 1) off hocc seg hseg
      | none =>
        have he : extract buf guess = (2, []) := by
          unfold extract; rw [hmm, hmm2]
        rw [he] at hseg
        simp at hseg

/-- A buffer holding a RIFX signature and no RIFF signature. -/
def bufW7 : List Nat := [82, 73, 70, 88, 0, 0, 0, 9, 1, 2, 3, 4, 5]

/-- Witness for C7 at a concrete buffer: no RIFF occurrence, a RIFX
occurrence at offset 0, so the scan fixes big-endian mode (flag 1). -/
theorem C7_probe_priority_witness :
    (∃ q, occursAt bufW7 RIFXb q) ∧ (extract bufW7 false).1 = 1 := by
  have hno : ∀ q, ¬ occursAt bufW7 RIFFb q := by
    have hb : ∀ q < 13, ¬ occursAt bufW7 RIFFb q := by decide
    intro q hocc
    have h1 := hocc.1
    have h13 : bufW7.length = 13 := rfl
    have h4 : RIFFb.length = 4 := rfl
    exact hb q (by omega) hocc
  exact ⟨⟨0, by decide⟩, (C7_probe_priority bufW7 false).2.2.1 hno ⟨0, by decide⟩⟩

/-- The `"labl"` tag bytes searched by `labl`. -/
def lablB : List Nat := [108, 97, 98, 108]

/-- The `"note"` tag bytes (handled by unriffle's `rdump`, never
searched by `labl`). -/
def noteB : List Nat := [110, 111, 116, 101]

/-- C's `isprint` in the C locale: the printable characters 0x20-0x7E. -/
def isprintC (c : Nat) : Prop := 32 ≤ c ∧ c ≤ 126

instance (c : Nat) : Decidable (isprintC c) := by
  unfold isprintC; infer_instance

/-- The C string starting at offset `i`: the bytes up to the first NUL
(what `strcpy` copies / `%s` prints). -/
def cstr (seg : List Nat) (i : Nat) : List Nat :=
  (seg.drop i).takeWhile (fun c => c != 0)

/-- The sanitization loop of `labl` (src/unnamed/part_000:226-229):
replace every non-printable character and every one of `/`, `\`, space
(47, 92, 32) by `_` (95). -/
def sanitize (l : List Nat) : List Nat :=
  l.map (fun c => if ¬ isprintC c ∨ c = 47 ∨ c = 92 ∨ c = 32 then 95 else c)

/-- The clamped candidate sub-length of `labl`
(src/unnamed/part_000:214-217) at a candidate `b` (the position just
past a `"labl"` tag): `l = len - b`, `ll = get_ui32(b)`,
`if (ll > l - 4) ll = l - 4` in `size_t` arithmetic. -/
def lablClamped (e : Nat) (seg : List Nat) (b : Nat) : Nat :=
  let l := seg.length - b
  let ll0 := get_ui32 e seg b
  if wsub l 4 < ll0 then wsub l 4 else ll0

/-- The acceptance test of `labl` (src/unnamed/part_000:220): clamped
sub-length in [6,200], printable first text byte at `b + 8`, and NUL at
`b + ll + 3` — i.e. at offset `ll - 1` from the chunk-data start
`b + 4`, which is offset `ll - 5` from the text start `b + 8`. -/
def acceptAt (e : Nat) (seg : List Nat) (b : Nat) : Prop :=
  let ll := lablClamped e seg b
  ll ≤ 200 ∧ 6 ≤ ll ∧ isprintC (seg.getD (b + 8) 0) ∧ seg.getD (b + ll + 3) 0 = 0

instance (e : Nat) (seg : List Nat) (b : Nat) : Decidable (acceptAt e seg b) := by
  unfold acceptAt; infer_instance

/-- The candidate-scan loop of `labl` (src/unnamed/part_000:212-224):
while more than 8 bytes remain, find the next `"labl"` tag, advance
past it, test the candidate, and on acceptance return the C string at
`b + 8` (the label text past size and id fields).  `fuel` bounds the
iterations; the wrapper supplies `seg.length + 1`, which suffices since
every round advances the cursor by at least 4. -/
def lablLoop (e : Nat) (seg : List Nat) : Nat → Nat → List Nat
  | 0, _ => []
  | fuel+1, bpos =>
    if 8 < seg.length - bpos then
      match mem_mem (seg.drop bpos) lablB with
      | some t =>
        let b := bpos + t + 4
        if acceptAt e seg b then cstr seg (b + 8)
        else lablLoop e seg fuel b
      | none => []
    else []

/-- `labl` (src/unnamed/part_000:204-231): scan the segment for an
acceptable label candidate and return the sanitized label text, or the
empty string when no candidate is accepted. -/
def labl (e : Nat) (seg : List Nat) : List Nat :=
  sanitize (lablLoop e seg (seg.length + 1) 0)

theorem lablB_len : lablB.length = 4 := rfl

/-- When every `"labl"` occurrence at or past the cursor fails the
acceptance test, the scan returns the empty label. -/
theorem lablLoop_empty (e : Nat) (seg : List Nat) :
    ∀ (fuel bpos : Nat),
      (∀ q, bpos ≤ q → occursAt seg lablB q → ¬ acceptAt e seg (q + 4)) →
      lablLoop e seg fuel bpos = [] := by
  intro fuel
  induction fuel with
  | zero => intro bpos _; rfl
  | succ fuel ih =>
    intro bpos hno
    simp only [lablLoop]
    by_cases hrem : 8 < seg.length - bpos
    · rw [if_pos hrem]
      cases hmm : mem_mem (seg.drop bpos) lablB with
      | some t =>
        dsimp only
        have hocc := (mem_mem_some (seg.drop bpos) lablB (by decide) t hmm).1
        have hocc' : occursAt seg lablB (bpos + t) :=
          (occursAt_drop seg lablB bpos t (by rw [lablB_len]; omega)).mp hocc
        have hna : ¬ acceptAt e seg (bpos + t + 4) := hno (bpos + t) (by omega) hocc'
        rw [if_neg hna]
        exact ih (bpos + t + 4) (fun q hq hq2 => hno q (by omega) hq2)
      | none => rfl
    · rw [if_neg hrem]

/-- A non-empty scan result is the C string of some accepted `"labl"`
candidate. -/
theorem lablLoop_nonempty (e : Nat) (seg : List Nat) :
    ∀ (fuel bpos : Nat), lablLoop e seg fuel bpos ≠ [] →
      ∃ q, bpos ≤ q ∧ occursAt seg lablB q ∧ acceptAt e seg (q + 4) ∧
        lablLoop e seg fuel bpos = cstr seg (q + 12) := by
  intro fuel
  induction fuel with
  | zero => intro bpos h; exact absurd rfl h
  | succ fuel ih =>
    intro bpos h
    simp only [lablLoop] at h ⊢
    by_cases hrem : 8 < seg.length - bpos
    · rw [if_pos hrem] at h ⊢
      cases hmm : mem_mem (seg.drop bpos) lablB with
      | some t =>
        rw [hmm] at h
        dsimp only at h ⊢
        have hocc := (mem_mem_some (seg.drop bpos) lablB (by decide) t hmm).1
        have hocc' : occursAt seg lablB (bpos + t) :=
          (occursAt_drop seg lablB bpos t (by rw [lablB_len]; omega)).mp hocc
        by_cases hacc : acceptAt e seg (bpos + t + 4)
        · rw [if_pos hacc]
          refine ⟨bpos + t, by omega, hocc', hacc, ?_⟩
          have : bpos + t + 4 + 8 = bpos + t + 12 := by omega
          rw [this]
        · rw [if_neg hacc] at h ⊢
          obtain ⟨q, hq1, hq2, hq3, hq4⟩ := ih (bpos + t + 4) h
          exact ⟨q, by omega, hq2, hq3, hq4⟩
      | none => rw [hmm] at h; dsimp only at h; exact absurd rfl h
    · rw [if_neg hrem] at h; exact absurd rfl h

/-- C4 (amended): a label candidate is accepted iff it sits just past a
`"labl"` tag occurrence reached by the scan, its clamped sub-length
(declared length clamped to remaining−4 in `size_t` arithmetic) lies in
[6,200], the first text byte (12 bytes past the tag start) is
printable, and the byte at offset (clamped length − 1) from the
chunk-data start — i.e. (clamped length − 5) from the text start — is
NUL; `"note"` tags are never searched; when no occurrence is accepted
the extractor returns the empty label rather than an error. -/
theorem C4_label_acceptance_amended (e : Nat) (seg : List Nat) :
    ((∀ q, occursAt seg lablB q → ¬ acceptAt e seg (q + 4)) → labl e seg = []) ∧
    (labl e seg ≠ [] →
      ∃ q, occursAt seg lablB q ∧ acceptAt e seg (q + 4) ∧
        labl e seg = sanitize (cstr seg (q + 12))) := by
  constructor
  · intro hno
    unfold labl
    rw [lablLoop_empty e seg (seg.length + 1) 0 (fun q _ hq2 => hno q hq2)]
    rfl
  · intro hne
    have hl : lablLoop e seg (seg.length + 1) 0 ≠ [] := by
      intro h0
      apply hne
      unfold labl
      rw [h0]
      rfl
    obtain ⟨q, -, hq2, hq3, hq4⟩ := lablLoop_nonempty e seg (seg.length + 1) 0 hl
    refine ⟨q, hq2, hq3, ?_⟩
    unfold labl
    rw [hq4]

/-- A concrete segment: a `"labl"` chunk with declared length 6 whose
label text is `"B"`, NUL-terminated at offset (length − 1) from the
chunk-data start as `labl` requires — but not at (length − 1) from the
text start as the claim requires. -/
def segNul : List Nat :=
  [108, 97, 98, 108, 6, 0, 0, 0, 65, 65, 65, 65, 66, 0, 1, 2, 3, 4, 5, 6]

/-- A concrete segment holding a perfectly-formed `"note"` label chunk
(declared length 6, printable text, NUL exactly where the claim wants
it) and no `"labl"` tag. -/
def segNote : List Nat :=
  [110, 111, 116, 101, 6, 0, 0, 0, 1, 1, 1, 1, 65, 0, 66, 66, 66, 0, 7, 7]

/-- The acceptance predicate exactly as claim C4 words it: declared
(unclamped) sub-length in [6,200], printable first text byte, and NUL
at offset (declared length − 1) from the text start (12 bytes past the
tag start). -/
def claimAccept (e : Nat) (seg : List Nat) (q : Nat) : Prop :=
  let dl := get_ui32 e seg (q + 4)
  6 ≤ dl ∧ dl ≤ 200 ∧ isprintC (seg.getD (q + 12) 0) ∧
    seg.getD (q + 12 + dl - 1) 0 = 0

instance (e : Nat) (seg : List Nat) (q : Nat) : Decidable (claimAccept e seg q) := by
  unfold claimAccept; infer_instance

/-- C4 counterexample: on `segNul` the code accepts a candidate (label
`"B"` = [66]) although no position in the segment satisfies the claim's
predicate (the claim places the terminating NUL 4 bytes later than the
code does); and on `segNote` a `"note"` candidate satisfying the
claim's predicate is ignored (the code searches only `"labl"`), so the
claimed acceptance biconditional fails in both directions.
(Occurrences require `q + 4 ≤ 20`, so `q < 20` covers every case.) -/
theorem C4_label_acceptance_counterexample :
    (labl 0 segNul = [66] ∧ segNul.length = 20 ∧
      (∀ q < 20, ¬ (occursAt segNul lablB q ∧ claimAccept 0 segNul q))) ∧
    (labl 0 segNote = [] ∧ segNote.length = 20 ∧
      occursAt segNote noteB 0 ∧ claimAccept 0 segNote 0) := by
  decide

/-- A concrete segment with a single well-formed `"labl"` chunk whose
label text is `"A"` = [65]. -/
def segW4 : List Nat := [108, 97, 98, 108, 6, 0, 0, 0, 1, 1, 1, 1, 65, 0]

/-- Witness for C4 (amended) at a concrete segment. -/
theorem C4_label_acceptance_amended_witness :
    labl 0 segW4 ≠ [] ∧
    (∃ q, occursAt segW4 lablB q ∧ acceptAt 0 segW4 (q + 4) ∧
      labl 0 segW4 = sanitize (cstr segW4 (q + 12))) :=
  ⟨by decide, (C4_label_acceptance_amended 0 segW4).2 (by decide)⟩

/-- The scan returns the label at `q` when `q` is an accepted `"labl"`
occurrence, every earlier occurrence at or past the cursor is rejected,
and no earlier occurrence overlaps within 4 bytes of `q` (the scan
resumes 4 bytes past each hit, so such an occurrence would be skipped). -/
theorem lablLoop_reaches (e : Nat) (seg : List Nat) (q : Nat)
    (hocc : occursAt seg lablB q) (hacc : acceptAt e seg (q + 4))
    (hlen : q + 13 ≤ seg.length) :
    ∀ (fuel bpos : Nat), seg.length + 1 ≤ bpos + fuel → bpos ≤ q →
      (∀ q', occursAt seg lablB q' → bpos ≤ q' → q' < q →
          ¬ acceptAt e seg (q' + 4) ∧ q' + 4 ≤ q) →
      lablLoop e seg fuel bpos = cstr seg (q + 12) := by
  intro fuel
  induction fuel with
  | zero => intro bpos hfuel hbq _; omega
  | succ fuel ih =>
    intro bpos hfuel hbq hearlier
    simp only [lablLoop]
    rw [if_pos (by omega)]
    have hoccd : occursAt (seg.drop bpos) lablB (q - bpos) := by
      rw [occursAt_drop seg lablB bpos (q - bpos) (by rw [lablB_len]; omega)]
      have hb : bpos + (q - bpos) = q := by omega
      rw [hb]
      exact hocc
    obtain ⟨t, hmm, ht1, ht2, ht3⟩ :=
      mem_mem_of_occurs (seg.drop bpos) lablB (by decide) hoccd
    rw [hmm]
    dsimp only
    have hq0 : occursAt seg lablB (bpos + t) :=
      (occursAt_drop seg lablB bpos t (by rw [lablB_len]; omega)).mp ht1
    rcases Nat.eq_or_lt_of_le ht2 with heq | hlt
    · have hbt : bpos + t = q := by omega
      rw [hbt, if_pos hacc]
    · have hbt : bpos + t < q := by omega
      obtain ⟨hna, hle⟩ := hearlier (bpos + t) hq0 (by omega) hbt
      rw [if_neg hna]
      exact ih (bpos + t + 4) (by omega) (by omega)
        (fun q' h1 h2 h3 => hearlier q' h1 (by omega) h3)

/-- C10 (amended): `labl` returns the first acceptable candidate in
buffer order, provided every earlier `"labl"` occurrence fails the
acceptance test and none of them lies within the last 3 bytes before
the accepted occurrence (the scan resumes 4 bytes past each hit, so an
acceptable occurrence overlapping a tested one within 4 bytes is
skipped); later acceptable candidates never influence the result. -/
theorem C10_first_acceptable_amended (e : Nat) (seg : List Nat) (q : Nat)
    (hocc : occursAt seg lablB q) (hacc : acceptAt e seg (q + 4))
    (hearlier : ∀ q', occursAt seg lablB q' → q' < q →
        ¬ acceptAt e seg (q' + 4) ∧ q' + 4 ≤ q) :
    labl e seg = sanitize (cstr seg (q + 12)) := by
  have hlen : q + 13 ≤ seg.length := by
    obtain ⟨-, -, hpr, -⟩ := hacc
    by_contra hlt
    push_neg at hlt
    have h0 : seg.getD (q + 4 + 8) 0 = 0 :=
      List.getD_eq_default seg 0 (by omega)
    rw [h0] at hpr
    exact absurd hpr.1 (by omega)
  unfold labl
  rw [lablLoop_reaches e seg q hocc hacc hlen (seg.length + 1) 0 (by omega)
    (by omega) (fun q' h1 _ h3 => hearlier q' h1 h3)]

/-- A segment holding the overlapped tags `"lablabl"`: `"labl"` occurs
at 0 (rejected: non-printable first text byte) and at 3 (acceptable:
clamped length 6, text `"Z"` = [90], NUL in place). -/
def segC10 : List Nat :=
  [108, 97, 98, 108, 97, 98, 108, 6, 0, 0, 0, 0, 0, 0, 0, 90, 0, 0, 0, 0]

/-- C10 counterexample: in `segC10` the earliest `"labl"` occurrence
passing the acceptance test is at offset 3 (label `"Z"` = [90]), yet
`labl` returns the empty label: after testing the rejected candidate at
0 the scan resumes 4 bytes past it, skipping the acceptable overlapped
occurrence at 3, so the extractor does not return the first acceptable
candidate in buffer order. -/
theorem C10_first_acceptable_counterexample :
    labl 0 segC10 = [] ∧
    occursAt segC10 lablB 3 ∧ acceptAt 0 segC10 (3 + 4) ∧
    (∀ q < 3, ¬ (occursAt segC10 lablB q ∧ acceptAt 0 segC10 (q + 4))) ∧
    sanitize (cstr segC10 (3 + 12)) = [90] := by
  decide

/-- Witness for C10 (amended) at a concrete segment whose first
occurrence is accepted. -/
theorem C10_first_acceptable_amended_witness :
    occursAt segW4 lablB 0 ∧ acceptAt 0 segW4 (0 + 4) ∧
    labl 0 segW4 = sanitize (cstr segW4 (0 + 12)) :=
  ⟨by decide, by decide,
   C10_first_acceptable_amended 0 segW4 0 (by decide) (by decide)
     (fun q' _ h3 => absurd h3 (by omega))⟩

/-- The `"LIST"` tag bytes. -/
def LISTb : List Nat := [76, 73, 83, 84]

/-- The `"cue "` tag bytes. -/
def cueB : List Nat := [99, 117, 101, 32]

/-- The `"fmt "` tag bytes. -/
def fmtB : List Nat := [102, 109, 116, 32]

/-- `FOURCC_IS` (unriffle.c): compare the 4 bytes at `off` with a tag. -/
def fccIs (buf : List Nat) (off : Nat) (tag : List Nat) : Bool :=
  (List.range 4).all (fun i => buf.getD (off + i) 0 == tag.getD i 0)

/-- Length of the C string at `i` (bytes before the first NUL), as
`dumpStr`'s `%s` walks it. -/
def cstrLen (buf : List Nat) (i : Nat) : Nat := (cstr buf i).length

/-- The declared size after the padding fix-up of the common tail
(unriffle.c:461-464, second revision): `if (sz % 2) ++sz`.  `sz` is a
`uint32_t`, so the increment wraps: `padded 0xFFFFFFFF = 0`. -/
def padded (sz : Nat) : Nat := if sz % 2 = 1 then w32 (sz + 1) else sz

/-- Observable events of a decode pass: `attempt off` marks a call of
`rdump` at offset `off` (each sibling the decoder attempts), `chunk`
marks a chunk header dumped (`dump4cc "Chunk ID"`), `pad` marks a
reported padding byte (`dumpU8 "Padding Byte"`). -/
inductive Ev where
  | attempt (off : Nat)
  | chunk (off : Nat) (sz : Nat)
  | pad (off : Nat)
deriving DecidableEq, Repr

/-- Result of a decode pass: the event trace, the list of absolute byte
addresses dereferenced, the return value of `rdump` (0 or -1), and a
flag recording whether the modelling fuel ran out (i.e. the C
recursion is deeper than the supplied fuel). -/
structure RRes where
  events : List Ev
  reads : List Nat
  ret : Int
  oof : Bool
deriving DecidableEq, Repr

/-- The dispatch on known non-container-root chunk types inside `rdump`
(unriffle.c:421-458, second revision): yields the branch's events and
reads, its fuel flag, and the local `fsize` the common tail will use
(the labl/note branch executes `fsize -= 8`).  `recur` is the recursion
at the next fuel level, used by the `LIST` branch.  32-bit arithmetic:
the cue entry base `r->data + i*24 + 4` is computed with `uint32_t i`,
so the offset `i*24 + 4` wraps modulo 2^32; the fmt tail length
`sz - 18` likewise wraps modulo 2^32 (`sz` is `uint32_t`).  The LIST
sub-size `sz - sizeof(fcc_t)` is evaluated in `size_t` (the `sizeof`
operand promotes it), hence `wsub` modulo 2^64. -/
def rbranch (e : Nat) (buf : List Nat) (off fsize sz : Nat)
    (recur : Nat → Nat → RRes) : List Ev × List Nat × Bool × Nat :=
  if fccIs buf off LISTb then
    let inner := recur (off + 12) (wsub sz 4)
    ⟨inner.events, rng (off + 8) 4 ++ inner.reads, inner.oof, fsize⟩
  else if fccIs buf off lablB || fccIs buf off noteB then
    ⟨[], rng (off + 8) 4 ++ rng (off + 12) (cstrLen buf (off + 12) + 1), false, fsize - 8⟩
  else if fccIs buf off cueB then
    ⟨[], rng (off + 8) 4 ++ rng (off + 8) 4 ++
        (List.range (get_ui32 e buf (off + 8))).flatMap
          (fun i => rng (off + 8 + w32 (i * 24 + 4)) 24),
      false, fsize⟩
  else if fccIs buf off fmtB then
    ⟨[], rng (off + 8) 2 ++ rng (off + 10) 2 ++ rng (off + 12) 4 ++ rng (off + 16) 4 ++
        rng (off + 20) 2 ++ rng (off + 22) 2 ++
        (if 16 < sz then rng (off + 24) 2 ++ rng (off + 26) (wsub32 sz 18) else []),
      false, fsize⟩
  else
    ⟨[], (if sz ≤ fsize then rng (off + 8) sz else []), false, fsize⟩

/-- `rdump` (unriffle.c:396-466, second revision): the recursive chunk
decoder, embedded over `(buf, off, fsize)` with all reads absolute.
Guards: `fsize < 8` and `sz < 2` end the subtree normally (return 0);
`sz > fsize` reports Truncated (return -1).  A `RIFF`/`RIFX` chunk
dumps its type, recurses into its payload at `off + 12`, dumps any
trailing bytes, and returns 0 without visiting a sibling.  Any other
chunk dispatches through `rbranch`, reports a padding byte for an odd
size, and tail-recurses to the next sibling at `off + 8 + padded sz`
(the `uint32_t` increment inside `padded` wraps at 0xFFFFFFFF).  The
trailing-bytes comparison `fsize > sz + 8` evaluates `sz + 8` in
`unsigned int`, wrapping modulo 2^32.  `fuel` decreases by one per
call; running out sets `oof` (the C code itself recurses unboundedly). -/
def rdump (e : Nat) (buf : List Nat) : Nat → Nat → Nat → RRes
  | 0, _, _ => ⟨[], [], 0, true⟩
  | fuel+1, off, fsize =>
    if fsize < 8 then ⟨[Ev.attempt off], [], 0, false⟩
    else
      let sz := get_ui32 e buf (off + 4)
      if sz < 2 then ⟨[Ev.attempt off], rng (off + 4) 4, 0, false⟩
      else if fsize < sz then ⟨[Ev.attempt off], rng (off + 4) 4, -1, false⟩
      else
        let hdR := rng (off + 4) 4 ++ rng off 4 ++ rng (off + 4) 4
        if fccIs buf off RIFFb || fccIs buf off RIFXb then
          let inner := rdump e buf fuel (off + 12) sz
          ⟨[Ev.attempt off, Ev.chunk off sz] ++ inner.events,
           hdR ++ rng (off + 8) 4 ++ inner.reads ++ rng off 4 ++
             (if w32 (sz + 8) < fsize
              then rng (off + 8 + sz) (fsize - w32 (sz + 8)) else []),
           0, inner.oof⟩
        else
          let br := rbranch e buf off fsize sz (fun o f => rdump e buf fuel o f)
          let sz1 := padded sz
          let padE : List Ev := if sz % 2 = 1 then [Ev.pad (off + 8 + sz)] else []
          let padR : List Nat := if sz % 2 = 1 then [off + 8 + sz] else []
          let tl := rdump e buf fuel (off + 8 + sz1) (wsub br.2.2.2 sz1)
          ⟨[Ev.attempt off, Ev.chunk off sz] ++ br.1 ++ padE ++ tl.events,
           hdR ++ br.2.1 ++ rng off 4 ++ padR ++ tl.reads,
           tl.ret, br.2.2.1 || tl.oof⟩

theorem fccIs_head {buf : List Nat} {off : Nat} {tag : List Nat}
    (h : fccIs buf off tag = true) : buf.getD (off + 0) 0 = tag.getD 0 0 := by
  unfold fccIs at h
  rw [List.all_eq_true] at h
  have h0 := h 0 (List.mem_range.mpr (by omega))
  exact beq_iff_eq.mp h0

/-- Two different tags cannot both match at the same offset when their
first bytes differ. -/
theorem fccIs_false_of_ne {buf : List Nat} {off : Nat} {t1 t2 : List Nat}
    (h : fccIs buf off t1 = true) (hne : t1.getD 0 0 ≠ t2.getD 0 0) :
    fccIs buf off t2 = false := by
  cases h2 : fccIs buf off t2
  · rfl
  · exact absurd ((fccIs_head h).symm.trans (fccIs_head h2)) hne

/-- The first address of a non-empty read range is in it. -/
theorem rng_mem_self (s n : Nat) (hn : 0 < n) : s ∈ rng s n := by
  unfold rng
  rw [List.mem_map]
  exact ⟨0, List.mem_range.mpr hn, by omega⟩

/-- Every `rdump` call with fuel left first records its attempt at its
offset. -/
theorem rdump_events_head (e : Nat) (buf : List Nat) (fuel off fsize : Nat) :
    ∃ rest, (rdump e buf (fuel + 1) off fsize).events = Ev.attempt off :: rest := by
  simp only [rdump]
  by_cases h1 : fsize < 8
  · rw [if_pos h1]; exact ⟨[], rfl⟩
  · rw [if_neg h1]
    by_cases h2 : get_ui32 e buf (off + 4) < 2
    · rw [if_pos h2]; exact ⟨[], rfl⟩
    · rw [if_neg h2]
      by_cases h3 : fsize < get_ui32 e buf (off + 4)
      · rw [if_pos h3]; exact ⟨[], rfl⟩
      · rw [if_neg h3]
        by_cases h4 : (fccIs buf off RIFFb || fccIs buf off RIFXb) = true
        · rw [if_pos h4]; exact ⟨_, rfl⟩
        · rw [if_neg h4]; exact ⟨_, rfl⟩

/-- The local `fsize` the common tail receives from the dispatch: 8
less than the incoming one exactly for labl/note chunks. -/
theorem rbranch_f1 (e : Nat) (buf : List Nat) (off fsize sz : Nat)
    (recur : Nat → Nat → RRes) :
    (rbranch e buf off fsize sz recur).2.2.2
      = if fccIs buf off lablB || fccIs buf off noteB then fsize - 8 else fsize := by
  unfold rbranch
  by_cases hL : fccIs buf off LISTb
  · rw [if_pos hL]
    have h1 : fccIs buf off lablB = false := fccIs_false_of_ne hL (by decide)
    have h2 : fccIs buf off noteB = false := fccIs_false_of_ne hL (by decide)
    rw [h1, h2]
    rfl
  · rw [if_neg hL]
    by_cases hln : (fccIs buf off lablB || fccIs buf off noteB) = true
    · rw [if_pos hln, if_pos hln]
    · rw [if_neg hln, if_neg hln]
      by_cases hc : fccIs buf off cueB
      · rw [if_pos hc]
      · rw [if_neg hc]
        by_cases hf : fccIs buf off fmtB
        · rw [if_pos hf]
        · rw [if_neg hf]

/-- C5: the decoder stops a subtree normally (return 0) when the
remaining length is below 8 or the declared size is below 2 (the
degenerate case, silently — no chunk is even reported), reports the
Truncated anomaly (return -1) when the declared size exceeds the
remaining length — and then nothing beyond the size-field read has
happened and nothing further is attempted, which at the outermost root
terminates the whole pass; and after a `LIST` sub-branch — whatever its
result, in particular a Truncated -1 — the next sibling at the
derivable offset `off + 8 + padded sz` is still attempted, and the
chunk's result is that sibling chain's result. -/
theorem C5_guard_behavior (e : Nat) (buf : List Nat) (off fsize fuel : Nat) :
    (fsize < 8 →
      rdump e buf (fuel + 1) off fsize = ⟨[Ev.attempt off], [], 0, false⟩) ∧
    (8 ≤ fsize → get_ui32 e buf (off + 4) < 2 →
      rdump e buf (fuel + 1) off fsize = ⟨[Ev.attempt off], rng (off + 4) 4, 0, false⟩) ∧
    (8 ≤ fsize → 2 ≤ get_ui32 e buf (off + 4) → fsize < get_ui32 e buf (off + 4) →
      rdump e buf (fuel + 1) off fsize = ⟨[Ev.attempt off], rng (off + 4) 4, -1, false⟩) ∧
    (8 ≤ fsize → 2 ≤ get_ui32 e buf (off + 4) → get_ui32 e buf (off + 4) ≤ fsize →
      fccIs buf off LISTb = true →
      ∃ pre,
        (rdump e buf (fuel + 1) off fsize).events
          = pre ++ (rdump e buf fuel (off + 8 + padded (get_ui32 e buf (off + 4)))
              (wsub fsize (padded (get_ui32 e buf (off + 4))))).events ∧
        (rdump e buf (fuel + 1) off fsize).ret
          = (rdump e buf fuel (off + 8 + padded (get_ui32 e buf (off + 4)))
              (wsub fsize (padded (get_ui32 e buf (off + 4))))).ret ∧
        ∀ g, fuel = g + 1 →
          ∃ rest, (rdump e buf fuel (off + 8 + padded (get_ui32 e buf (off + 4)))
              (wsub fsize (padded (get_ui32 e buf (off + 4))))).events
            = Ev.attempt (off + 8 + padded (get_ui32 e buf (off + 4))) :: rest) := by
  refine ⟨?_, ?_, ?_, ?_⟩
  · intro h1
    simp only [rdump]
    rw [if_pos h1]
  · intro h1 h2
    simp only [rdump]
    rw [if_neg (by omega), if_pos h2]
  · intro h1 h2 h3
    simp only [rdump]
    rw [if_neg (by omega), if_neg (by omega), if_pos h3]
  · intro h1 h2 h3 hL
    have hF : fccIs buf off RIFFb = false := fccIs_false_of_ne hL (by decide)
    have hX : fccIs buf off RIFXb = false := fccIs_false_of_ne hL (by decide)
    have hln : (fccIs buf off lablB || fccIs buf off noteB) = false := by
      rw [fccIs_false_of_ne hL (by decide), fccIs_false_of_ne hL (by decide)]
      rfl
    simp only [rdump]
    rw [if_neg (by omega), if_neg (by omega), if_neg (by omega), hF, hX]
    simp only [Bool.or_false, Bool.false_eq_true, if_false]
    rw [rbranch_f1, hln]
    simp only [Bool.false_eq_true, if_false]
    refine ⟨[Ev.attempt off, Ev.chunk off (get_ui32 e buf (off + 4))]
        ++ (rbranch e buf off fsize (get_ui32 e buf (off + 4))
              (fun o f => rdump e buf fuel o f)).1
        ++ (if get_ui32 e buf (off + 4) % 2 = 1
            then [Ev.pad (off + 8 + get_ui32 e buf (off + 4))] else []), ?_, ?_, ?_⟩
    · simp [List.append_assoc]
    · trivial
    · intro g hg
      subst hg
      exact rdump_events_head e buf g _ _

/-- A `LIST` chunk (declared size 12, form `INFO`) whose inner chunk
(`junk`, declared size 100) is truncated, followed by a sibling chunk
(`datA`, declared size 2) at offset 20. -/
def bufW5 : List Nat :=
  [76, 73, 83, 84, 12, 0, 0, 0, 73, 78, 70, 79,
   106, 117, 110, 107, 100, 0, 0, 0,
   100, 97, 116, 65, 2, 0, 0, 0]

/-- Witness for C5 at `bufW5`: the `LIST` sub-branch is Truncated
(returns -1), yet the sibling at offset 20 is still attempted. -/
theorem C5_guard_behavior_witness :
    fccIs bufW5 0 LISTb = true ∧
    (rdump 0 bufW5 3 (0 + 12) (wsub (get_ui32 0 bufW5 (0 + 4)) 4)).ret = -1 ∧
    (∃ pre,
      (rdump 0 bufW5 (3 + 1) 0 28).events
        = pre ++ (rdump 0 bufW5 3 (0 + 8 + padded (get_ui32 0 bufW5 (0 + 4)))
            (wsub 28 (padded (get_ui32 0 bufW5 (0 + 4))))).events ∧
      (rdump 0 bufW5 (3 + 1) 0 28).ret
        = (rdump 0 bufW5 3 (0 + 8 + padded (get_ui32 0 bufW5 (0 + 4)))
            (wsub 28 (padded (get_ui32 0 bufW5 (0 + 4))))).ret ∧
      ∀ g, 3 = g + 1 →
        ∃ rest, (rdump 0 bufW5 3 (0 + 8 + padded (get_ui32 0 bufW5 (0 + 4)))
            (wsub 28 (padded (get_ui32 0 bufW5 (0 + 4))))).events
          = Ev.attempt (0 + 8 + padded (get_ui32 0 bufW5 (0 + 4))) :: rest) :=
  ⟨by decide, by decide,
   (C5_guard_behavior 0 bufW5 0 28 3).2.2.2 (by decide) (by decide) (by decide) (by decide)⟩

/-- An odd-sized `labl` chunk whose declared size is 0xFFFFFFFF,
decoded with 0xFFFFFFFF bytes remaining (as happens inside a file of
at least 4 GiB whose bytes from this chunk on start with these 16; the
decode path touches no offset beyond 15). -/
def bufC8x : List Nat :=
  [108, 97, 98, 108, 255, 255, 255, 255, 9, 9, 9, 9, 1, 0, 0, 0]

/-- C8 counterexample: for the odd declared size 0xFFFFFFFF the
`uint32_t` increment `++sz` wraps to 0, so after the pad byte is
reported at the chunk's end (offset 8 + 0xFFFFFFFF = 4294967303) the
next sibling is attempted at the chunk's payload start (offset 8), not
at the chunk's end plus 1 (4294967304), refuting the claim's "next
sibling attempted at the chunk's end plus 1". -/
theorem C8_pad_byte_counterexample :
    get_ui32 0 bufC8x (0 + 4) = 4294967295 ∧
    get_ui32 0 bufC8x (0 + 4) % 2 = 1 ∧
    fccIs bufC8x 0 lablB = true ∧
    (rdump 0 bufC8x 2 0 4294967295).events
      = [Ev.attempt 0, Ev.chunk 0 4294967295, Ev.pad 4294967303, Ev.attempt 8] ∧
    Ev.attempt (0 + 8 + 4294967295 + 1) ∉ (rdump 0 bufC8x 2 0 4294967295).events := by
  refine ⟨by decide, by decide, by decide, by decide, by decide⟩

/-- C8 (amended): after the decoder finishes any chunk other than a
pass root — any chunk whose tag is neither `RIFF` nor `RIFX`; the
decoder treats every RIFF/RIFX-tagged chunk as the root of a pass and
returns from it with no pad handling and no sibling scan — whose
declared size is odd, it reports exactly one pad byte at the chunk's
end `off + 8 + sz` and attempts the next sibling at
`off + 8 + padded sz`, which is the chunk's end plus 1 for every odd
size below 0xFFFFFFFF; for the size 0xFFFFFFFF the 32-bit increment
wraps to 0 and the sibling is attempted at the chunk's payload start
`off + 8` instead. -/
theorem C8_pad_byte_amended (e : Nat) (buf : List Nat) (off fsize fuel : Nat)
    (hF : fccIs buf off RIFFb = false) (hX : fccIs buf off RIFXb = false)
    (h8 : 8 ≤ fsize) (h2 : 2 ≤ get_ui32 e buf (off + 4))
    (hsz : get_ui32 e buf (off + 4) ≤ fsize)
    (hodd : get_ui32 e buf (off + 4) % 2 = 1) :
    (get_ui32 e buf (off + 4) < 4294967295 →
      padded (get_ui32 e buf (off + 4)) = get_ui32 e buf (off + 4) + 1) ∧
    (get_ui32 e buf (off + 4) = 4294967295 →
      padded (get_ui32 e buf (off + 4)) = 0) ∧
    ∃ pre,
      (rdump e buf (fuel + 1) off fsize).events
        = pre ++ Ev.pad (off + 8 + get_ui32 e buf (off + 4)) ::
            (rdump e buf fuel (off + 8 + padded (get_ui32 e buf (off + 4)))
              (wsub (if fccIs buf off lablB || fccIs buf off noteB
                     then fsize - 8 else fsize)
                (padded (get_ui32 e buf (off + 4))))).events ∧
      ∀ g, fuel = g + 1 →
        ∃ rest, (rdump e buf fuel (off + 8 + padded (get_ui32 e buf (off + 4)))
            (wsub (if fccIs buf off lablB || fccIs buf off noteB
                   then fsize - 8 else fsize)
              (padded (get_ui32 e buf (off + 4))))).events
          = Ev.attempt (off + 8 + padded (get_ui32 e buf (off + 4))) :: rest := by
  refine ⟨?_, ?_, ?_⟩
  · intro hlt
    unfold padded
    rw [if_pos hodd]
    unfold w32 W32
    omega
  · intro heq
    rw [heq]
    decide
  · simp only [rdump]
    rw [if_neg (by omega), if_neg (by omega), if_neg (by omega), hF, hX]
    simp only [Bool.or_false, Bool.false_eq_true, if_false]
    rw [rbranch_f1, if_pos hodd]
    refine ⟨[Ev.attempt off, Ev.chunk off (get_ui32 e buf (off + 4))]
        ++ (rbranch e buf off fsize (get_ui32 e buf (off + 4))
              (fun o f => rdump e buf fuel o f)).1, ?_, ?_⟩
    · simp [List.append_assoc]
    · intro g hg
      subst hg
      exact rdump_events_head e buf g _ _

/-- An odd-sized (`sz = 5`) `labl` chunk: its end is at offset 13, a
pad byte is reported there, and the sibling is attempted at 14. -/
def bufW8 : List Nat := [108, 97, 98, 108, 5, 0, 0, 0, 1, 0, 0, 0, 65, 0, 99]

/-- Witness for C8 (amended) at `bufW8`. -/
theorem C8_pad_byte_amended_witness :
    fccIs bufW8 0 lablB = true ∧ get_ui32 0 bufW8 (0 + 4) % 2 = 1 ∧
    ((get_ui32 0 bufW8 (0 + 4) < 4294967295 →
        padded (get_ui32 0 bufW8 (0 + 4)) = get_ui32 0 bufW8 (0 + 4) + 1) ∧
     (get_ui32 0 bufW8 (0 + 4) = 4294967295 →
        padded (get_ui32 0 bufW8 (0 + 4)) = 0) ∧
     ∃ pre,
       (rdump 0 bufW8 (1 + 1) 0 15).events
         = pre ++ Ev.pad (0 + 8 + get_ui32 0 bufW8 (0 + 4)) ::
             (rdump 0 bufW8 1 (0 + 8 + padded (get_ui32 0 bufW8 (0 + 4)))
               (wsub (if fccIs bufW8 0 lablB || fccIs bufW8 0 noteB
                      then 15 - 8 else 15)
                 (padded (get_ui32 0 bufW8 (0 + 4))))).events ∧
       ∀ g, 1 = g + 1 →
         ∃ rest, (rdump 0 bufW8 1 (0 + 8 + padded (get_ui32 0 bufW8 (0 + 4)))
             (wsub (if fccIs bufW8 0 lablB || fccIs bufW8 0 noteB
                    then 15 - 8 else 15)
               (padded (get_ui32 0 bufW8 (0 + 4))))).events
           = Ev.attempt (0 + 8 + padded (get_ui32 0 bufW8 (0 + 4))) :: rest) :=
  ⟨by decide, by decide,
   C8_pad_byte_amended 0 bufW8 0 15 1 (by decide) (by decide) (by decide)
     (by decide) (by decide) (by decide)⟩

theorem not_true_of_false {b : Bool} (h : b = false) : ¬ b = true := by
  rw [h]
  exact Bool.false_ne_true

/-- A well-formed file whose `cue ` chunk (at offset 12, declared size
8, validated against the remaining 24 bytes) declares 1 cue point: the
single 24-byte entry read spans offsets 24-47, far past both the
validated extent (ending at 35) and the 32-byte buffer. -/
def cueBuf : List Nat :=
  [82, 73, 70, 70, 24, 0, 0, 0, 87, 65, 86, 69,
   99, 117, 101, 32, 8, 0, 0, 0, 1, 0, 0, 0,
   9, 9, 9, 9, 9, 9, 9, 9]

/-- C3 counterexample: decoding `cueBuf` dereferences offset 47 even
though the buffer is 32 bytes long (and the extent validated at the
cue chunk's header ends at offset 35), and reports no anomaly (returns
0): bytes dereferenced through the cue count field are not confined to
the validated extent. -/
theorem C3_bounds_counterexample :
    cueBuf.length = 32 ∧
    (rdump 0 cueBuf 5 0 32).reads.contains 47 = true ∧
    (rdump 0 cueBuf 5 0 32).ret = 0 := by
  refine ⟨rfl, ?_, ?_⟩ <;> decide

/-- C3 (amended): the declared chunk-header size is validated against
the remaining length before the chunk body is touched — when it
exceeds the remaining length the subtree stops with the Truncated
result having dereferenced only the four size-field bytes — but body
reads are not confined to the validated extent: in the `cue ` branch
the number of 24-byte entries read is governed solely by the count
field read from the input, so for every `i` below the count the entry
base `off + 8 + ((i·24 + 4) mod 2^32)` (the offset arithmetic is done
in `uint32_t`) is dereferenced, regardless of the validated size and
remaining length. -/
theorem C3_validate_first_amended (e : Nat) (buf : List Nat) (off fsize fuel : Nat) :
    (8 ≤ fsize → 2 ≤ get_ui32 e buf (off + 4) → fsize < get_ui32 e buf (off + 4) →
      (rdump e buf (fuel + 1) off fsize).ret = -1 ∧
      (rdump e buf (fuel + 1) off fsize).reads = rng (off + 4) 4) ∧
    (8 ≤ fsize → 2 ≤ get_ui32 e buf (off + 4) → get_ui32 e buf (off + 4) ≤ fsize →
      fccIs buf off cueB = true →
      ∀ i < get_ui32 e buf (off + 8),
        (off + 8 + w32 (i * 24 + 4)) ∈ (rdump e buf (fuel + 1) off fsize).reads) := by
  constructor
  · intro h1 h2 h3
    simp only [rdump]
    rw [if_neg (by omega), if_neg (by omega), if_pos h3]
    exact ⟨rfl, rfl⟩
  · intro h1 h2 h3 hcue i hi
    have hF : fccIs buf off RIFFb = false := fccIs_false_of_ne hcue (by decide)
    have hX : fccIs buf off RIFXb = false := fccIs_false_of_ne hcue (by decide)
    have hL : fccIs buf off LISTb = false := fccIs_false_of_ne hcue (by decide)
    have hln : (fccIs buf off lablB || fccIs buf off noteB) = false := by
      rw [fccIs_false_of_ne hcue (by decide), fccIs_false_of_ne hcue (by decide)]
      rfl
    have hbr : (rbranch e buf off fsize (get_ui32 e buf (off + 4))
        (fun o f => rdump e buf fuel o f)).2.1
        = rng (off + 8) 4 ++ rng (off + 8) 4 ++
            (List.range (get_ui32 e buf (off + 8))).flatMap
              (fun j => rng (off + 8 + w32 (j * 24 + 4)) 24) := by
      unfold rbranch
      rw [if_neg (not_true_of_false hL), if_neg (not_true_of_false hln), if_pos hcue]
    have hmem : off + 8 + w32 (i * 24 + 4) ∈
        (List.range (get_ui32 e buf (off + 8))).flatMap
          (fun j => rng (off + 8 + w32 (j * 24 + 4)) 24) :=
      List.mem_flatMap.mpr ⟨i, List.mem_range.mpr hi, rng_mem_self _ 24 (by omega)⟩
    simp only [rdump]
    rw [if_neg (by omega), if_neg (by omega), if_neg (by omega), hF, hX]
    simp only [Bool.or_false, Bool.false_eq_true, if_false]
    rw [hbr]
    simp only [List.mem_append]
    exact Or.inl (Or.inl (Or.inl (Or.inr (Or.inr hmem))))

/-- Witness for C3 (amended) at `cueBuf`'s cue chunk. -/
theorem C3_validate_first_amended_witness :
    fccIs cueBuf 12 cueB = true ∧
    ∀ i < get_ui32 0 cueBuf (12 + 8),
      (12 + 8 + w32 (i * 24 + 4)) ∈ (rdump 0 cueBuf (4 + 1) 12 24).reads :=
  ⟨by decide,
   (C3_validate_first_amended 0 cueBuf 12 24 4).2 (by decide) (by decide)
     (by decide) (by decide)⟩

/-- A family of nested RIFF containers: `nestBuf d` holds `d` nested
RIFF headers (each with declared size 8 and form type `WAVE`), each
child starting 12 bytes into its parent, as `rdump`'s container branch
recurses. -/
def nestBuf : Nat → List Nat
  | 0 => List.replicate 8 0
  | d+1 => RIFFb ++ [8, 0, 0, 0] ++ [87, 65, 86, 69] ++ nestBuf d

theorem nestBuf_length (d : Nat) : (nestBuf d).length = 12 * d + 8 := by
  induction d with
  | zero => rfl
  | succ d ih =>
    show (RIFFb ++ [8, 0, 0, 0] ++ [87, 65, 86, 69] ++ nestBuf d).length
        = 12 * (d + 1) + 8
    simp [RIFFb, ih]
    omega

/-- Decoding at an offset where `d` nested RIFF headers begin consumes
more than `d` units of fuel: for every `d`, the recursion is more than
`d` calls deep. -/
theorem rdump_nest_oof :
    ∀ (d k : Nat) (buf : List Nat) (fs : Nat),
      buf.drop k = nestBuf d → 8 ≤ fs →
      (rdump 0 buf d k fs).oof = true := by
  intro d
  induction d with
  | zero => intro k buf fs _ _; rfl
  | succ d ih =>
    intro k buf fs hdrop hfs
    have g0 : buf.getD (k + 0) 0 = 82 := by rw [← getD_drop buf k 0, hdrop]; rfl
    have g1 : buf.getD (k + 1) 0 = 73 := by rw [← getD_drop buf k 1, hdrop]; rfl
    have g2 : buf.getD (k + 2) 0 = 70 := by rw [← getD_drop buf k 2, hdrop]; rfl
    have g3 : buf.getD (k + 3) 0 = 70 := by rw [← getD_drop buf k 3, hdrop]; rfl
    have hsz : get_ui32 0 buf (k + 4) = 8 := by
      have i0 : buf.getD (k + 4) 0 = 8 := by rw [← getD_drop buf k 4, hdrop]; rfl
      have i1 : buf.getD (k + 4 + 1) 0 = 0 := by
        show buf.getD (k + 5) 0 = 0
        rw [← getD_drop buf k 5, hdrop]
        rfl
      have i2 : buf.getD (k + 4 + 2) 0 = 0 := by
        show buf.getD (k + 6) 0 = 0
        rw [← getD_drop buf k 6, hdrop]
        rfl
      have i3 : buf.getD (k + 4 + 3) 0 = 0 := by
        show buf.getD (k + 7) 0 = 0
        rw [← getD_drop buf k 7, hdrop]
        rfl
      simp only [get_ui32, i0, i1, i2, i3]
      decide
    have hfcc : fccIs buf k RIFFb = true := by
      have hr : List.range 4 = [0, 1, 2, 3] := rfl
      unfold fccIs
      rw [hr]
      simp only [List.all_cons, List.all_nil]
      rw [g0, g1, g2, g3]
      decide
    simp only [rdump]
    rw [hsz, if_neg (by omega), if_neg (by omega), if_neg (by omega), hfcc]
    rw [Bool.true_or, if_pos rfl]
    dsimp only
    apply ih (k + 12) buf 8 ?_ (by omega)
    have hdd : (buf.drop k).drop 12 = buf.drop (k + 12) := List.drop_drop 12 k buf
    rw [← hdd, hdrop]
    rfl

/-- C6: the claim fails on the code — the decoder enforces no maximum
recursion depth at all: for every candidate bound `C`, decoding the
`C`-level nested input `nestBuf C` recurses through more than `C`
nested calls (the fuel-`C` model runs out of fuel), and no "too deeply
nested" condition exists anywhere; depth grows with the input's
nesting, unbounded by any constant. -/
theorem C6_depth_unbounded (C : Nat) :
    (rdump 0 (nestBuf C) C 0 (nestBuf C).length).oof = true := by
  apply rdump_nest_oof C 0 (nestBuf C) (nestBuf C).length (List.drop_zero _) ?_
  rw [nestBuf_length]
  omega

end Riffx
